import Mathlib

/-!
Verification of the `scraper` element-reference core.

Shallow embedding of `src/element_ref/mod.rs` and `src/trait.rs`.

The tree collaborator (`ego_tree`), the node payload (`crate::node`), the
selector predicate and the serializer are consumed by the core through the
narrow interfaces described in the specification (§3, §6); they are modelled
here as explicit data: a rose tree with path-based node identity, a
depth-first open/close edge stream, a boolean matching predicate, and a
recursive printer.  Rust iterators become explicit state-passing functions:
`next` returns the optional item together with the successor state.
-/

set_option maxHeartbeats 1000000

namespace Scraper

/-- Modelled from the spec: the element payload of `crate::node` (not under
`src/`): tag name and ordered attribute list (§3 "Element payload"). -/
structure Element where
  name : String
  attrs : List (String × String)

/-- Modelled from the spec: attribute lookup on the element payload
(§4.2 `attribute(name)` "returns the value if present"). -/
def Element.attr (self : Element) (name : String) : Option String :=
  (self.attrs.find? fun p => p.1 == name).map fun p => p.2

/-- Modelled from the spec: the tagged node payload of `crate::node` (not under
`src/`), a sum type with variants Document, Fragment, Doctype, Comment, Text,
Element, ProcessingInstruction (§9 "Tagged-union node payload dispatch"). -/
inductive Node where
  | Document
  | Fragment
  | Doctype (name : String)
  | Comment (comment : String)
  | Text (text : String)
  | Element (element : Element)
  | ProcessingInstruction (target : String)

/-- Modelled from the spec: `Node::is_element` — classification is a single
pattern match on the Element variant (§9). -/
def Node.is_element : Node → Bool
  | .Element _ => true
  | _ => false

/-- Modelled from the spec: `Node::as_element` — extracts the Element variant
or yields absence (§9). -/
def Node.as_element : Node → Option Scraper.Element
  | .Element e => some e
  | _ => none

/-- Model of the external immutable tree (`ego_tree`, out of scope per §1):
every node carries a payload and an ordered list of child subtrees. -/
inductive NTree where
  | node (value : Node) (children : List NTree)

/-- Payload of the root node of a subtree. -/
def NTree.value : NTree → Node
  | .node v _ => v

/-- Child subtrees of the root node of a subtree. -/
def NTree.children : NTree → List NTree
  | .node _ cs => cs

/-- Model of `ego_tree::NodeRef`: a handle to a node of an immutable document.
Identity is the path of child indices from the document root; the handle also
carries the subtree rooted at the node (immutable, so it is determined by the
identity within one document). -/
structure NodeRef where
  path : List Nat
  tree : NTree

/-- `NodeRef::value`: the payload of the referenced node. -/
def NodeRef.value (self : NodeRef) : Node :=
  self.tree.value

/-- Child handles of the subtrees `cs`, which sit at child indices
`i, i+1, ...` under the node with path `p`. -/
def childrenAux (p : List Nat) (i : Nat) : List NTree → List NodeRef
  | [] => []
  | c :: cs => ⟨p ++ [i], c⟩ :: childrenAux p (i + 1) cs

/-- `NodeRef::children`: handles of the direct children, in document order. -/
def NodeRef.children (self : NodeRef) : List NodeRef :=
  childrenAux self.path 0 self.tree.children

/-- Model of `ego_tree::iter::Edge`: an open or close event of the depth-first
walk (§6: "a depth-first open/close event walk"). -/
inductive Edge where
  | Open (node : NodeRef)
  | Close (node : NodeRef)

mutual

/-- The full depth-first open/close edge stream of the subtree rooted at the
node with path `p`: its own open event, the streams of its children in order,
then its own close event. -/
def NTree.edges (p : List Nat) : NTree → List Edge
  | .node v cs =>
    Edge.Open ⟨p, .node v cs⟩ :: (edgesForest p 0 cs ++ [Edge.Close ⟨p, .node v cs⟩])

/-- Edge streams of the subtrees `cs` sitting at child indices `i, i+1, ...`
under the node with path `p`, concatenated in order. -/
def edgesForest (p : List Nat) (i : Nat) : List NTree → List Edge
  | [] => []
  | c :: cs => NTree.edges (p ++ [i]) c ++ edgesForest p (i + 1) cs

end

/-- Model of `ego_tree::iter::Traverse`: the walk iterator, as the fixed root
handle plus the remaining edge stream. -/
structure Traverse where
  root : NodeRef
  edges : List Edge

/-- One step of the walk iterator: pop the next edge, if any. -/
def Traverse.next (self : Traverse) : Option Edge × Traverse :=
  match self.edges with
  | [] => (none, self)
  | e :: rest => (some e, ⟨self.root, rest⟩)

/-- `NodeRef::traverse`: the walk over the node's entire subtree, starting at
its own open event. -/
def NodeRef.traverse (self : NodeRef) : Traverse :=
  ⟨self, NTree.edges self.path self.tree⟩

/-- The nodes of the open events of an edge stream, in stream order. -/
def openNodes (es : List Edge) : List NodeRef :=
  es.filterMap fun e =>
    match e with
    | .Open n => some n
    | .Close _ => none

/-- `NodeRef::descendants`: the node itself followed by all its descendants in
pre-order (the open events of its walk). -/
def NodeRef.descendants (self : NodeRef) : List NodeRef :=
  openNodes (NTree.edges self.path self.tree)

/-- `ElementRef` (src/element_ref/mod.rs:18-21): wrapper around a reference to
an element node. -/
structure ElementRef where
  node : NodeRef

/-- The traits named in the derive attribute on `ElementRef`
(src/element_ref/mod.rs:18): the only comparison impls the type gets. -/
def ElementRef.derives : List String :=
  ["Debug", "Clone", "Copy", "PartialEq", "Eq"]

/-- `ElementRef::wrap` (src/element_ref/mod.rs:29-35): wraps a `NodeRef` only
if it references an element node. -/
def ElementRef.wrap (node : NodeRef) : Option ElementRef :=
  if node.value.is_element then some ⟨node⟩ else none

/-- `ElementRef::value` (src/element_ref/mod.rs:38-40): the element payload;
the source unwraps, so the `none` branch is the unreachable panic. -/
def ElementRef.value (self : ElementRef) : Option Element :=
  self.node.value.as_element

/-- Model of `crate::Selector` through its narrow interface (§6): a compiled
matcher exposing `matches_with_scope(candidate, optional_scope_root) -> bool`;
the matching engine itself is an external collaborator (§1). -/
def Selector : Type :=
  ElementRef → Option ElementRef → Bool

/-- `Selector::matches_with_scope` as consumed by the core. -/
def Selector.matches_with_scope (self : Selector) (element : ElementRef)
    (scope : Option ElementRef) : Bool :=
  self element scope

/-- `Select` (src/element_ref/mod.rs:146-151): iterator over descendent
elements matching a selector. -/
structure Select where
  scope : ElementRef
  inner : Traverse
  selector : Selector
  index : Nat

/-- The loop body of `Select::next` (src/element_ref/mod.rs:156-168): scan the
remaining edges for an open event of an element matching the selector with the
scope anchor as the `:scope` root; yield it (incrementing the match counter)
or exhaust the walk. -/
def selectNextAux (scope : ElementRef) (selector : Selector) (root : NodeRef)
    (index : Nat) : List Edge → Option ElementRef × Select
  | [] => (none, ⟨scope, ⟨root, []⟩, selector, index⟩)
  | Edge.Open node :: rest =>
    match ElementRef.wrap node with
    | some element =>
      if selector.matches_with_scope element (some scope) then
        (some element, ⟨scope, ⟨root, rest⟩, selector, index + 1⟩)
      else selectNextAux scope selector root index rest
    | none => selectNextAux scope selector root index rest
  | Edge.Close _ :: rest => selectNextAux scope selector root index rest

/-- `Select::next` (src/element_ref/mod.rs:156-168). -/
def Select.next (self : Select) : Option ElementRef × Select :=
  selectNextAux self.scope self.selector self.inner.root self.index self.inner.edges

/-- All items produced by repeatedly advancing the scan over the remaining
edges (the list of everything a `Select` will ever yield). -/
def selectListAux (scope : ElementRef) (selector : Selector) : List Edge → List ElementRef
  | [] => []
  | Edge.Open node :: rest =>
    match ElementRef.wrap node with
    | some element =>
      if selector.matches_with_scope element (some scope) then
        element :: selectListAux scope selector rest
      else selectListAux scope selector rest
    | none => selectListAux scope selector rest
  | Edge.Close _ :: rest => selectListAux scope selector rest

/-- The full yield sequence of a `Select` state. -/
def Select.toList (self : Select) : List ElementRef :=
  selectListAux self.scope self.selector self.inner.edges

/-- `ElementRef::select` (src/element_ref/mod.rs:43-53): start the walk at the
anchor and immediately skip one event (the anchor's own `Edge::Open`). -/
def ElementRef.select (self : ElementRef) (selector : Selector) : Select :=
  let inner := self.node.traverse
  let inner := (inner.next).2
  ⟨self, inner, selector, 0⟩

/-- `AttrNotFoundError` (src/element_ref/mod.rs:136-142). -/
structure AttrNotFoundError where
  element : ElementRef
  attr : String

/-- `ElementRef::attr` (src/element_ref/mod.rs:77-79): attribute lookup on the
element payload. -/
def ElementRef.attr (self : ElementRef) (attr : String) : Option String :=
  self.value.bind fun el => el.attr attr

/-- `ElementRef::try_attr` (src/element_ref/mod.rs:82-87): the same lookup,
with absence turned into an `AttrNotFoundError` carrying the element and the
requested name. -/
def ElementRef.try_attr (self : ElementRef) (attr : String) :
    Except AttrNotFoundError String :=
  match self.attr attr with
  | some v => Except.ok v
  | none => Except.error ⟨self, attr⟩

/-- `Text` (src/element_ref/mod.rs:203-207): iterator over descendent text
nodes. -/
structure Text where
  inner : Traverse
  index : Nat

/-- The loop body of `Text::next` (src/element_ref/mod.rs:212-222): scan the
remaining edges for an open event of a text node; yield its text (incrementing
the fragment counter) or exhaust the walk. -/
def textNextAux (root : NodeRef) (index : Nat) : List Edge → Option String × Text
  | [] => (none, ⟨⟨root, []⟩, index⟩)
  | Edge.Open node :: rest =>
    match node.value with
    | Node.Text t => (some t, ⟨⟨root, rest⟩, index + 1⟩)
    | _ => textNextAux root index rest
  | Edge.Close _ :: rest => textNextAux root index rest

/-- `Text::next` (src/element_ref/mod.rs:212-222). -/
def Text.next (self : Text) : Option String × Text :=
  textNextAux self.inner.root self.index self.inner.edges

/-- All text fragments the scan over the remaining edges will produce. -/
def textListAux : List Edge → List String
  | [] => []
  | Edge.Open node :: rest =>
    match node.value with
    | Node.Text t => t :: textListAux rest
    | _ => textListAux rest
  | Edge.Close _ :: rest => textListAux rest

/-- The full yield sequence of a `Text` state. -/
def Text.toList (self : Text) : List String :=
  textListAux self.inner.edges

/-- `ElementRef::text` (src/element_ref/mod.rs:90-95): the text iterator over
the anchor's walk, with no priming skip. -/
def ElementRef.text (self : ElementRef) : Text :=
  ⟨self.node.traverse, 0⟩

/-- `ElementNotFoundError` (src/element_ref/mod.rs:193-200). -/
structure ElementNotFoundError where
  scope : ElementRef
  selector : Selector
  index : Nat

/-- `TextNotFoundError` (src/element_ref/mod.rs:238-243). -/
structure TextNotFoundError where
  root : NodeRef
  index : Nat

/-- The `Iterator` capability as used by `src/trait.rs`: advance, returning
the optional item and the successor state. -/
class Iterator (σ : Type) (ι : outParam Type) where
  next : σ → Option ι × σ

/-- `TryNextError` (src/trait.rs:15-21): manufacture the contextual
"no value was found" error for the current state. -/
class TryNextError (σ : Type) (ε : outParam Type) where
  try_next_err : σ → ε × σ

/-- The blanket `TryNext` impl (src/trait.rs:23-33):
`self.next().ok_or_else(|| self.try_next_err())`. -/
def try_next {σ ι ε : Type} [Iterator σ ι] [TryNextError σ ε] (s : σ) :
    Except ε ι × σ :=
  match Iterator.next s with
  | (some x, s') => (Except.ok x, s')
  | (none, s') =>
    match TryNextError.try_next_err s' with
    | (e, s'') => (Except.error e, s'')

instance : Iterator Select ElementRef :=
  ⟨Select.next⟩

/-- `TryNextError for Select` (src/element_ref/mod.rs:173-189): the error
carries the scope anchor, the selector and the match count; no field of the
state is modified. -/
def Select.try_next_err (self : Select) : ElementNotFoundError × Select :=
  (⟨self.scope, self.selector, self.index⟩, self)

instance : TryNextError Select ElementNotFoundError :=
  ⟨Select.try_next_err⟩

instance : Iterator Text String :=
  ⟨Text.next⟩

/-- `TryNextError for Text` (src/element_ref/mod.rs:225-234): the error
carries the walk's root and the fragment count; no field of the state is
modified. -/
def Text.try_next_err (self : Text) : TextNotFoundError × Text :=
  (⟨self.inner.root, self.index⟩, self)

instance : TryNextError Text TextNotFoundError :=
  ⟨Text.try_next_err⟩

/-- `ElementRef::child_elements` (src/element_ref/mod.rs:108-110):
`self.children().filter_map(ElementRef::wrap)`. -/
def ElementRef.child_elements (self : ElementRef) : List ElementRef :=
  self.node.children.filterMap ElementRef.wrap

/-- `ElementRef::descendent_elements` (src/element_ref/mod.rs:123-125):
`self.descendants().filter_map(ElementRef::wrap)`. -/
def ElementRef.descendent_elements (self : ElementRef) : List ElementRef :=
  self.node.descendants.filterMap ElementRef.wrap

/-- Model of `html5ever::serialize::TraversalScope`: whole subtree versus
children only (the source passes `ChildrenOnly(None)`). -/
inductive TraversalScope where
  | IncludeNode
  | ChildrenOnly (parent : Option String)

/-- Model of `html5ever::serialize::SerializeOpts`: the three options the
adapter supplies (src/element_ref/mod.rs:56-60). -/
structure SerializeOpts where
  scripting_enabled : Bool
  traversal_scope : TraversalScope
  create_missing_parent : Bool

/-- Rendered attribute list of a start tag. -/
def attrsString : List (String × String) → String
  | [] => ""
  | a :: rest => " " ++ a.1 ++ "=" ++ "\"" ++ a.2 ++ "\"" ++ attrsString rest

/-- The start-tag markup of an element. -/
def startTag (e : Element) : String :=
  "<" ++ e.name ++ attrsString e.attrs ++ ">"

/-- The end-tag markup of an element. -/
def endTag (e : Element) : String :=
  "</" ++ e.name ++ ">"

mutual

/-- Modelled from the spec: the external serializer's whole-subtree output
(§4.6): an element prints as its own start tag, its serialized children, then
its own end tag; text prints raw; other node kinds print their children. -/
def serializeNode : NTree → String
  | .node (Node.Element el) cs => startTag el ++ serializeForest cs ++ endTag el
  | .node (Node.Text t) _ => t
  | .node (Node.Comment c) _ => "<!--" ++ c ++ "-->"
  | .node _ cs => serializeForest cs

/-- Serialization of a list of sibling subtrees, concatenated in order. -/
def serializeForest : List NTree → String
  | [] => ""
  | c :: cs => serializeNode c ++ serializeForest cs

end

/-- Modelled from the spec: the external serializer entry point (§4.6,
§6 "a `write(sink, element, options)` operation accepting the traversal-scope
flag"): whole-subtree scope prints the element's own subtree, children-only
scope prints only its children.  The two boolean flags tune escaping and
parent synthesis, which the model's well-formed output never exercises. -/
def externalSerialize (element : ElementRef) (opts : SerializeOpts) : String :=
  match opts.traversal_scope with
  | .IncludeNode => serializeNode element.node.tree
  | .ChildrenOnly _ => serializeForest element.node.tree.children

/-- `ElementRef::serialize` (src/element_ref/mod.rs:55-64): build the options
with `scripting_enabled = false` and `create_missing_parent = false` and call
the external serializer. -/
def ElementRef.serialize (self : ElementRef) (traversal_scope : TraversalScope) : String :=
  let opts : SerializeOpts := ⟨false, traversal_scope, false⟩
  externalSerialize self opts

/-- `ElementRef::html` (src/element_ref/mod.rs:67-69). -/
def ElementRef.html (self : ElementRef) : String :=
  self.serialize TraversalScope.IncludeNode

/-- `ElementRef::inner_html` (src/element_ref/mod.rs:72-74). -/
def ElementRef.inner_html (self : ElementRef) : String :=
  self.serialize (TraversalScope.ChildrenOnly none)

/-- Strict pre-order (document order) on node paths: a proper ancestor comes
before its descendants, siblings are ordered by child index. -/
def pathLt : List Nat → List Nat → Bool
  | [], [] => false
  | [], _ :: _ => true
  | _ :: _, [] => false
  | a :: p, b :: q => if a < b then true else if a = b then pathLt p q else false

/-- Document order on node handles. -/
def nodeLt (a b : NodeRef) : Prop :=
  pathLt a.path b.path = true

/-- Document order on element views. -/
def docBefore (a b : ElementRef) : Prop :=
  nodeLt a.node b.node

/-- Specification-side description of a scoped query's yield (§4.3): the
element nodes of the open events of an edge stream, filtered to those the
selector matches with the anchor as the `:scope` root, in stream order. -/
def selectEdges (scope : ElementRef) (selector : Selector) (es : List Edge) :
    List ElementRef :=
  es.filterMap fun e =>
    match e with
    | Edge.Open n =>
      match ElementRef.wrap n with
      | some element =>
        if selector.matches_with_scope element (some scope) then some element
        else none
      | none => none
    | Edge.Close _ => none

/-- Observation helper: the tag name of an element view, if any. -/
def nameOf (e : ElementRef) : Option String :=
  e.value.map fun el => el.name

/-! Concrete documents used by the witnesses.  `exampleFragment` is the parse
of the spec's fragment `foo<span><b>bar</b></span><a><i>baz</i></a>qux` (§8,
scenario 10): the fragment root element with a mix of text and element
children. -/

def exampleSpanTree : NTree :=
  .node (.Element ⟨"span", [("id", "s")]⟩) [.node (.Element ⟨"b", []⟩) [.node (.Text "bar") []]]

def exampleATree : NTree :=
  .node (.Element ⟨"a", []⟩) [.node (.Element ⟨"i", []⟩) [.node (.Text "baz") []]]

def exampleFragment : NTree :=
  .node (.Element ⟨"html", []⟩)
    [.node (.Text "foo") [], exampleSpanTree, exampleATree, .node (.Text "qux") []]

def exampleRoot : ElementRef :=
  ⟨⟨[], exampleFragment⟩⟩

def spanEl : ElementRef :=
  ⟨⟨[1], exampleSpanTree⟩⟩

def spanNode : NodeRef :=
  ⟨[1], exampleSpanTree⟩

/-- An element with no children, for exhaustion witnesses. -/
def divTree : NTree :=
  .node (.Element ⟨"div", []⟩) []

def divEl : ElementRef :=
  ⟨⟨[], divTree⟩⟩

/-- A selector matching every element. -/
def selAll : Selector :=
  fun _ _ => true

/-- A selector matching no element. -/
def selNone : Selector :=
  fun _ _ => false

/-! ## Path order and traversal lemmas -/

theorem pathLt_append_cons (p : List Nat) (i : Nat) (r : List Nat) :
    pathLt p (p ++ i :: r) = true := by
  induction p with
  | nil => rfl
  | cons a p ih => simp [pathLt, ih]

theorem pathLt_cons_lt (p : List Nat) {i j : Nat} (h : i < j) (r s : List Nat) :
    pathLt (p ++ i :: r) (p ++ j :: s) = true := by
  induction p with
  | nil => simp [pathLt, h]
  | cons a p ih => simp [pathLt, ih]

theorem openNodes_nil : openNodes [] = [] := rfl

theorem openNodes_append (es fs : List Edge) :
    openNodes (es ++ fs) = openNodes es ++ openNodes fs := by
  simp [openNodes, List.filterMap_append]

theorem openNodes_cons_open (n : NodeRef) (es : List Edge) :
    openNodes (Edge.Open n :: es) = n :: openNodes es := by
  simp [openNodes, List.filterMap_cons]

theorem openNodes_cons_close (n : NodeRef) (es : List Edge) :
    openNodes (Edge.Close n :: es) = openNodes es := by
  simp [openNodes, List.filterMap_cons]

mutual

/-- Every open event of the walk of the subtree at `p` is at `p` itself or at
a strict extension of `p`. -/
theorem edges_open_below (p : List Nat) (t : NTree) :
    ∀ n ∈ openNodes (NTree.edges p t), n.path = p ∨ ∃ i r, n.path = p ++ i :: r := by
  match t with
  | .node v cs =>
    intro n hn
    rw [NTree.edges, openNodes_cons_open, openNodes_append, openNodes_cons_close, openNodes_nil,
      List.append_nil] at hn
    rcases List.mem_cons.mp hn with hn' | hn'
    · left
      rw [hn']
    · right
      rcases edgesForest_open_below p 0 cs n hn' with ⟨j, r, _, h⟩
      exact ⟨j, r, h⟩

/-- Every open event of the walks of the subtrees at child indices `≥ i` under
`p` is at a strict extension of `p` through some child index `≥ i`. -/
theorem edgesForest_open_below (p : List Nat) (i : Nat) (cs : List NTree) :
    ∀ n ∈ openNodes (edgesForest p i cs), ∃ j r, i ≤ j ∧ n.path = p ++ j :: r := by
  match cs with
  | [] =>
    intro n hn
    rw [edgesForest, openNodes_nil] at hn
    cases hn
  | c :: cs =>
    intro n hn
    rw [edgesForest, openNodes_append] at hn
    rcases List.mem_append.mp hn with hn | hn
    · rcases edges_open_below (p ++ [i]) c n hn with h | ⟨j, r, h⟩
      · exact ⟨i, [], le_refl i, by simpa using h⟩
      · exact ⟨i, j :: r, le_refl i, by simpa using h⟩
    · rcases edgesForest_open_below p (i + 1) cs n hn with ⟨j, r, hij, h⟩
      exact ⟨j, r, by omega, h⟩

end

mutual

/-- The open events of a subtree's walk appear in strictly increasing document
order. -/
theorem edges_open_pairwise (p : List Nat) (t : NTree) :
    (openNodes (NTree.edges p t)).Pairwise nodeLt := by
  match t with
  | .node v cs =>
    rw [NTree.edges, openNodes_cons_open, openNodes_append, openNodes_cons_close, openNodes_nil,
      List.append_nil]
    refine List.pairwise_cons.mpr ⟨?_, edgesForest_open_pairwise p 0 cs⟩
    intro n hn
    rcases edgesForest_open_below p 0 cs n hn with ⟨j, r, _, h⟩
    unfold nodeLt
    rw [h]
    exact pathLt_append_cons p j r

/-- The open events of the walks of sibling subtrees appear in strictly
increasing document order. -/
theorem edgesForest_open_pairwise (p : List Nat) (i : Nat) (cs : List NTree) :
    (openNodes (edgesForest p i cs)).Pairwise nodeLt := by
  match cs with
  | [] => rw [edgesForest, openNodes_nil]; exact List.Pairwise.nil
  | c :: cs =>
    rw [edgesForest, openNodes_append]
    refine List.pairwise_append.mpr
      ⟨edges_open_pairwise (p ++ [i]) c, edgesForest_open_pairwise p (i + 1) cs, ?_⟩
    intro a ha b hb
    rcases edgesForest_open_below p (i + 1) cs b hb with ⟨j', r', hij', h2⟩
    rcases edges_open_below (p ++ [i]) c a ha with h1 | ⟨j, r, h1⟩
    · unfold nodeLt
      rw [h1, h2]
      exact pathLt_cons_lt p (by omega) [] r'
    · unfold nodeLt
      rw [h1, h2]
      have hr : (p ++ [i]) ++ j :: r = p ++ i :: (j :: r) := by simp
      rw [hr]
      exact pathLt_cons_lt p (by omega) (j :: r) r'

end

/-! ## Classifier and iterator lemmas -/

theorem wrap_eq_some {n : NodeRef} {el : ElementRef} :
    ElementRef.wrap n = some el ↔ n.value.is_element = true ∧ el = ElementRef.mk n := by
  cases hv : n.value.is_element <;> simp [ElementRef.wrap, hv, eq_comm]

theorem filterMap_wrap_map_node_sublist (l : List NodeRef) :
    ((l.filterMap ElementRef.wrap).map fun el => el.node).Sublist l := by
  induction l with
  | nil => simp
  | cons n l ih =>
    rw [List.filterMap_cons]
    cases hw : ElementRef.wrap n with
    | none => exact ih.cons n
    | some el =>
      rw [List.map_cons]
      obtain ⟨-, rfl⟩ := wrap_eq_some.mp hw
      exact ih.cons₂ n

theorem selectListAux_eq_selectEdges (scope : ElementRef) (sel : Selector) (es : List Edge) :
    selectListAux scope sel es = selectEdges scope sel es := by
  induction es with
  | nil => rfl
  | cons e es ih =>
    cases e with
    | Open n =>
      cases hw : ElementRef.wrap n with
      | none => simp [selectListAux, selectEdges, List.filterMap_cons, hw, ih]
      | some el =>
        by_cases hm : sel.matches_with_scope el (some scope) = true
        · simp [selectListAux, selectEdges, List.filterMap_cons, hw, hm, ih]
        · simp [selectListAux, selectEdges, List.filterMap_cons, hw, hm, ih]
    | Close n =>
      simp [selectListAux, selectEdges, List.filterMap_cons, ih]

theorem selectListAux_map_node_sublist (scope : ElementRef) (sel : Selector) (es : List Edge) :
    ((selectListAux scope sel es).map fun el => el.node).Sublist (openNodes es) := by
  induction es with
  | nil => exact List.Sublist.refl _
  | cons e es ih =>
    cases e with
    | Open n =>
      rw [openNodes_cons_open]
      cases hw : ElementRef.wrap n with
      | none =>
        simp only [selectListAux, hw]
        exact ih.cons n
      | some el =>
        obtain ⟨-, rfl⟩ := wrap_eq_some.mp hw
        by_cases hm : sel.matches_with_scope (ElementRef.mk n) (some scope) = true
        · simp only [selectListAux, hw, hm, if_true, List.map_cons]
          exact ih.cons₂ n
        · simp only [selectListAux, hw, hm, if_false, Bool.false_eq_true]
          exact ih.cons n
    | Close n =>
      rw [openNodes_cons_close]
      simp only [selectListAux]
      exact ih

theorem selectNextAux_none (scope : ElementRef) (sel : Selector) (root : NodeRef)
    (index : Nat) (es : List Edge) (s' : Select)
    (h : selectNextAux scope sel root index es = (none, s')) :
    s' = ⟨scope, ⟨root, []⟩, sel, index⟩ := by
  induction es with
  | nil =>
    have h2 := congrArg Prod.snd h
    exact h2.symm
  | cons e es ih =>
    cases e with
    | Open n =>
      cases hw : ElementRef.wrap n with
      | none =>
        simp only [selectNextAux, hw] at h
        exact ih h
      | some el =>
        by_cases hm : sel.matches_with_scope el (some scope) = true
        · simp only [selectNextAux, hw, hm, if_true] at h
          cases h
        · simp only [selectNextAux, hw, hm, if_false, Bool.false_eq_true] at h
          exact ih h
    | Close n =>
      simp only [selectNextAux] at h
      exact ih h

theorem selectListAux_next_unfold (scope : ElementRef) (sel : Selector) (root : NodeRef)
    (index : Nat) (es : List Edge) :
    selectListAux scope sel es =
      (match selectNextAux scope sel root index es with
        | (some el, s') => el :: s'.toList
        | (none, _) => []) := by
  induction es generalizing index with
  | nil => rfl
  | cons e es ih =>
    cases e with
    | Open n =>
      cases hw : ElementRef.wrap n with
      | none =>
        simp only [selectListAux, selectNextAux, hw]
        exact ih index
      | some el =>
        by_cases hm : sel.matches_with_scope el (some scope) = true
        · simp only [selectListAux, selectNextAux, hw, hm, if_true]
          rfl
        · simp only [selectListAux, selectNextAux, hw, hm, if_false, Bool.false_eq_true]
          exact ih index
    | Close n =>
      simp only [selectListAux, selectNextAux]
      exact ih index

theorem textNextAux_none (root : NodeRef) (index : Nat) (es : List Edge) (t' : Text)
    (h : textNextAux root index es = (none, t')) :
    t' = ⟨⟨root, []⟩, index⟩ := by
  induction es with
  | nil =>
    have h2 := congrArg Prod.snd h
    exact h2.symm
  | cons e es ih =>
    cases e with
    | Open n =>
      cases hv : n.value with
      | Text s =>
        simp only [textNextAux, hv] at h
        cases h
      | _ =>
        simp only [textNextAux, hv] at h
        exact ih h
    | Close n =>
      simp only [textNextAux] at h
      exact ih h

theorem textListAux_next_unfold (root : NodeRef) (index : Nat) (es : List Edge) :
    textListAux es =
      (match textNextAux root index es with
        | (some s, t') => s :: t'.toList
        | (none, _) => []) := by
  induction es generalizing index with
  | nil => rfl
  | cons e es ih =>
    cases e with
    | Open n =>
      cases hv : n.value with
      | Text s => simp only [textListAux, textNextAux, hv]; rfl
      | _ =>
        simp only [textListAux, textNextAux, hv]
        exact ih index
    | Close n =>
      simp only [textListAux, textNextAux]
      exact ih index

/-- The remaining edges of a freshly constructed query: the anchor's subtree
walk with the anchor's own open event removed. -/
theorem select_inner_edges (E : ElementRef) (S : Selector) :
    (E.select S).inner.edges
      = edgesForest E.node.path 0 E.node.tree.children ++ [Edge.Close E.node] := by
  obtain ⟨⟨p, t⟩⟩ := E
  cases t with
  | node v cs => rfl

/-- The descendants of a node: the node itself, then the open events of its
children's walks. -/
theorem descendants_eq (n : NodeRef) :
    n.descendants = n :: openNodes (edgesForest n.path 0 n.tree.children) := by
  obtain ⟨p, t⟩ := n
  cases t with
  | node v cs =>
    show openNodes (NTree.edges p (NTree.node v cs)) = _
    rw [NTree.edges, openNodes_cons_open, openNodes_append, openNodes_cons_close, openNodes_nil,
      List.append_nil]
    rfl

theorem childrenAux_mem (p : List Nat) (i : Nat) (cs : List NTree) (n : NodeRef)
    (h : n ∈ childrenAux p i cs) : ∃ j c, i ≤ j ∧ n = ⟨p ++ [j], c⟩ := by
  induction cs generalizing i with
  | nil => cases h
  | cons c cs ih =>
    rw [childrenAux] at h
    rcases List.mem_cons.mp h with h | h
    · exact ⟨i, c, le_refl i, h⟩
    · rcases ih (i + 1) h with ⟨j, c', hij, hn⟩
      exact ⟨j, c', by omega, hn⟩

theorem childrenAux_pairwise (p : List Nat) (i : Nat) (cs : List NTree) :
    (childrenAux p i cs).Pairwise nodeLt := by
  induction cs generalizing i with
  | nil => exact List.Pairwise.nil
  | cons c cs ih =>
    rw [childrenAux]
    refine List.pairwise_cons.mpr ⟨?_, ih (i + 1)⟩
    intro n hn
    rcases childrenAux_mem p (i + 1) cs n hn with ⟨j, c', hij, rfl⟩
    show pathLt (p ++ [i]) (p ++ [j]) = true
    have h1 : p ++ [i] = p ++ i :: [] := rfl
    have h2 : p ++ [j] = p ++ j :: [] := rfl
    rw [h1, h2]
    exact pathLt_cons_lt p (by omega) [] []

/-! ## Claim theorems -/

/-- Claim C1: for every element view `E` and selector `S`, the iterator
returned by `E.select(S)` never yields `E` itself, even if `S` matches `E`,
because construction pre-consumes the anchor's own open traversal event; any
yielded element lies strictly inside `E`'s subtree, so `E` can only be
yielded by a query started from one of its proper ancestors. -/
theorem select_never_yields_anchor (E : ElementRef) (S : Selector) (el : ElementRef)
    (h : el ∈ (E.select S).toList) :
    el ≠ E ∧ ∃ i r, el.node.path = E.node.path ++ i :: r := by
  have hnode : el.node ∈ openNodes ((E.select S).inner.edges) := by
    have hsub := selectListAux_map_node_sublist E S ((E.select S).inner.edges)
    exact hsub.subset (List.mem_map_of_mem _ h)
  rw [select_inner_edges, openNodes_append, openNodes_cons_close, openNodes_nil,
    List.append_nil] at hnode
  rcases edgesForest_open_below E.node.path 0 _ el.node hnode with ⟨j, r, -, hpath⟩
  constructor
  · intro hEq
    rw [hEq] at hpath
    have hl := congrArg List.length hpath
    simp [List.length_append] at hl
  · exact ⟨j, r, hpath⟩

/-- Witness for C1 at the example fragment: querying from the root with an
all-matching selector yields the `span` element, which is distinct from the
root and strictly inside it. -/
theorem select_never_yields_anchor_witness :
    spanEl ≠ exampleRoot ∧ ∃ i r, spanEl.node.path = exampleRoot.node.path ++ i :: r :=
  select_never_yields_anchor exampleRoot selAll spanEl (List.Mem.head _)

/-- Claim C2: the sequence produced by repeatedly calling `next` on
`E.select(S)` is exactly the element nodes of the open events of the walk of
`E`'s subtree (the anchor's own pre-consumed open event excluded), filtered
to those the selector matches with `E` as the `:scope` root, yielded in
strict pre-order document order: every consecutive pair is strictly
increasing. -/
theorem select_yields_matches_in_preorder (E : ElementRef) (S : Selector) :
    (∀ s : Select, s.toList =
      (match s.next with
        | (some el, s') => el :: s'.toList
        | (none, _) => [])) ∧
    (E.select S).toList = selectEdges E S ((E.node.traverse.edges).drop 1) ∧
    List.Chain' docBefore (E.select S).toList := by
  refine ⟨fun s => selectListAux_next_unfold s.scope s.selector s.inner.root s.index
    s.inner.edges, ?_, ?_⟩
  · have hedges : (E.select S).inner.edges = (E.node.traverse.edges).drop 1 := by
      obtain ⟨⟨p, t⟩⟩ := E
      cases t with
      | node v cs => rfl
    calc (E.select S).toList
        = selectEdges E S ((E.select S).inner.edges) := selectListAux_eq_selectEdges E S _
      _ = selectEdges E S ((E.node.traverse.edges).drop 1) := by rw [hedges]
  · have hpair : (openNodes ((E.select S).inner.edges)).Pairwise nodeLt := by
      rw [select_inner_edges, openNodes_append, openNodes_cons_close, openNodes_nil,
        List.append_nil]
      exact edgesForest_open_pairwise _ 0 _
    have hsub := selectListAux_map_node_sublist E S ((E.select S).inner.edges)
    have hp2 := List.Pairwise.sublist hsub hpair
    have hp3 := List.pairwise_map.mp hp2
    exact hp3.chain'

/-- Claim C4: `ElementRef::wrap` returns a view exactly when the node's
payload is an element (absence, not an error, otherwise), and on every view
it produces, `value` finds the element payload, so the unwrap inside
`ElementRef::value` can never hit its failure branch. -/
theorem wrap_classifies_and_value_total (n : NodeRef) :
    (ElementRef.wrap n).isSome = n.value.is_element ∧
    ∀ e, ElementRef.wrap n = some e → ∃ el, n.value = Node.Element el ∧ e.value = some el := by
  constructor
  · cases hv : n.value.is_element <;> simp [ElementRef.wrap, hv]
  · intro e he
    obtain ⟨hel, rfl⟩ := wrap_eq_some.mp he
    cases hv : n.value with
    | Element el =>
      refine ⟨el, rfl, ?_⟩
      show n.value.as_element = some el
      rw [hv]
      rfl
    | _ =>
      rw [hv] at hel
      simp [Node.is_element] at hel

/-- Witness for C4 at the example `span` node: wrapping succeeds and the
view's `value` returns the element payload. -/
theorem wrap_classifies_and_value_total_witness :
    (ElementRef.wrap spanNode).isSome = spanNode.value.is_element ∧
    ∃ el, spanNode.value = Node.Element el ∧ spanEl.value = some el :=
  ⟨(wrap_classifies_and_value_total spanNode).1,
    (wrap_classifies_and_value_total spanNode).2 spanEl rfl⟩

/-- Claim C5: once `Select` or `Text` has returned no value because its walk
is exhausted, every subsequent `next` on the resulting state returns no value
again, on the very same state — never an error, never a re-yielded item
(fused idempotence). -/
theorem iterators_fused :
    (∀ (s s' : Select), s.next = (none, s') → s'.next = (none, s')) ∧
    (∀ (t t' : Text), t.next = (none, t') → t'.next = (none, t')) := by
  constructor
  · intro s s' h
    have hs' := selectNextAux_none s.scope s.selector s.inner.root s.index s.inner.edges s' h
    subst hs'
    rfl
  · intro t t' h
    have ht' := textNextAux_none t.inner.root t.index t.inner.edges t' h
    subst ht'
    rfl

/-- Witness for C5: a query on the childless `div` with a never-matching
selector exhausts immediately, and `next` on the exhausted state returns no
value with the state unchanged. -/
theorem iterators_fused_witness :
    (divEl.select selNone).next = (none, (⟨divEl, ⟨divEl.node, []⟩, selNone, 0⟩ : Select)) ∧
    (⟨divEl, ⟨divEl.node, []⟩, selNone, 0⟩ : Select).next
      = (none, (⟨divEl, ⟨divEl.node, []⟩, selNone, 0⟩ : Select)) :=
  ⟨rfl, iterators_fused.1 (divEl.select selNone) _ rfl⟩

/-- Claim C8: on a present attribute `try_attr` returns `Ok` of the same
value `attr` returns; on an absent one it returns an `AttrNotFoundError`
carrying exactly the element view it was called on and the requested
attribute name. -/
theorem try_attr_contract (E : ElementRef) (a : String) :
    (∀ v, E.attr a = some v → E.try_attr a = Except.ok v) ∧
    (E.attr a = none → E.try_attr a = Except.error ⟨E, a⟩) := by
  constructor
  · intro v hv
    simp [ElementRef.try_attr, hv]
  · intro hv
    simp [ElementRef.try_attr, hv]

/-- Witness for C8 on the example `span` element, whose only attribute is
`id="s"`. -/
theorem try_attr_contract_witness :
    spanEl.try_attr "id" = Except.ok "s" ∧
    spanEl.try_attr "href" = Except.error ⟨spanEl, "href"⟩ :=
  ⟨(try_attr_contract spanEl "id").1 "s" rfl, (try_attr_contract spanEl "href").2 rfl⟩

/-- Claim C9 (counterexample): the derive attribute on `ElementRef`
(src/element_ref/mod.rs:18) names no ordering trait — neither `PartialOrd`
nor `Ord` — and the source contains no manual ordering impl, so `ElementRef`
values cannot be ordered. -/
theorem elementref_no_ordering_derived :
    ¬ ("PartialOrd" ∈ ElementRef.derives ∨ "Ord" ∈ ElementRef.derives) := by
  decide

/-- Claim C9 (amended): equality of element views is derived from underlying
node identity — two `ElementRef` values are equal exactly when they reference
the same tree node — and the derive list supplies equality (`PartialEq`,
`Eq`) but no ordering. -/
theorem elementref_equality_node_identity :
    (∀ a b : ElementRef, a = b ↔ a.node = b.node) ∧
    "PartialEq" ∈ ElementRef.derives ∧ "Eq" ∈ ElementRef.derives ∧
    "PartialOrd" ∉ ElementRef.derives ∧ "Ord" ∉ ElementRef.derives := by
  refine ⟨?_, by decide, by decide, by decide, by decide⟩
  intro a b
  cases a
  cases b
  simp

/-- Claim C10: `try_next_err` leaves the iterator state unchanged for both
`Select` and `Text` — the walk position and the counter are the same after
the call — so the sequence of items subsequently yielded is identical. -/
theorem try_next_err_preserves_state :
    (∀ s : Select,
      (Select.try_next_err s).2 = s ∧ ((Select.try_next_err s).2).toList = s.toList) ∧
    (∀ t : Text,
      (Text.try_next_err t).2 = t ∧ ((Text.try_next_err t).2).toList = t.toList) :=
  ⟨fun _ => ⟨rfl, rfl⟩, fun _ => ⟨rfl, rfl⟩⟩

/-- Claim C3: for every iterator with both capabilities, `try_next` returns
`Ok` of exactly the item `next` yields, and otherwise `Err` of the error
manufactured by `try_next_err`; for `Select` that error carries the scope
anchor, the selector and the count of matches yielded so far, and for `Text`
the walk's root node and the count of fragments yielded so far. -/
theorem try_next_contract :
    (∀ (σ ι ε : Type) [Iterator σ ι] [TryNextError σ ε] (s : σ),
      (∀ x s', Iterator.next s = (some x, s') → try_next s = (Except.ok x, s')) ∧
      (∀ s', Iterator.next s = (none, s') →
        try_next s = (Except.error (TryNextError.try_next_err s').1,
          (TryNextError.try_next_err s').2))) ∧
    (∀ (s : Select) s', Select.next s = (none, s') →
      try_next s = (Except.error ⟨s.scope, s.selector, s.index⟩, s')) ∧
    (∀ (t : Text) t', Text.next t = (none, t') →
      try_next t = (Except.error ⟨t.inner.root, t.index⟩, t')) := by
  refine ⟨?_, ?_, ?_⟩
  · intro σ ι ε _ _ s
    constructor
    · intro x s' h
      simp [try_next, h]
    · intro s' h
      cases hpe : TryNextError.try_next_err s' with
      | mk e s'' => simp [try_next, h, hpe]
  · intro s s' h
    have hs' := selectNextAux_none s.scope s.selector s.inner.root s.index s.inner.edges s' h
    subst hs'
    simp only [try_next]
    rw [show Iterator.next s
      = (none, (⟨s.scope, ⟨s.inner.root, []⟩, s.selector, s.index⟩ : Select)) from h]
    rfl
  · intro t t' h
    have ht' := textNextAux_none t.inner.root t.index t.inner.edges t' h
    subst ht'
    simp only [try_next]
    rw [show Iterator.next t = (none, (⟨⟨t.inner.root, []⟩, t.index⟩ : Text)) from h]
    rfl

/-- Witness for C3: on the childless `div`, the text iterator is exhausted at
once, and `try_next` produces the contextual error carrying the walk's root
and a zero fragment count, on the exhausted state. -/
theorem try_next_contract_witness :
    Text.next divEl.text = (none, (⟨⟨divEl.node, []⟩, 0⟩ : Text)) ∧
    try_next divEl.text
      = (Except.error (⟨divEl.node, 0⟩ : TextNotFoundError), (⟨⟨divEl.node, []⟩, 0⟩ : Text)) :=
  ⟨rfl, try_next_contract.2.2 divEl.text ⟨⟨divEl.node, []⟩, 0⟩ rfl⟩

/-- Claim C6: `child_elements` yields only the anchor's direct element
children, in document order, and never the anchor itself; on an element view
`descendent_elements` yields the anchor exactly once, as the first item,
followed by the descendant elements in pre-order document order; on the root
of the fragment `foo<span><b>bar</b></span><a><i>baz</i></a>qux` it yields
the root, then `span`, `b`, `a`, `i`. -/
theorem child_and_descendent_elements :
    (∀ E : ElementRef,
      (∀ c ∈ E.child_elements,
        c.node ∈ E.node.children ∧ c.node.value.is_element = true ∧ c ≠ E) ∧
      (∀ n ∈ E.node.children, n.value.is_element = true →
        ElementRef.mk n ∈ E.child_elements) ∧
      List.Chain' docBefore E.child_elements ∧
      (E.node.value.is_element = true →
        ∃ rest, E.descendent_elements = E :: rest ∧ (∀ d ∈ rest, d ≠ E) ∧
          List.Chain' docBefore (E :: rest))) ∧
    (exampleRoot.descendent_elements).map nameOf
      = [some "html", some "span", some "b", some "a", some "i"] := by
  constructor
  · intro E
    refine ⟨?_, ?_, ?_, ?_⟩
    · intro c hc
      rcases List.mem_filterMap.mp hc with ⟨n, hn, hwn⟩
      obtain ⟨hel, rfl⟩ := wrap_eq_some.mp hwn
      refine ⟨hn, hel, ?_⟩
      rcases childrenAux_mem E.node.path 0 E.node.tree.children n hn with ⟨j, c', -, rfl⟩
      intro hEq
      have hn2 := congrArg ElementRef.node hEq
      have hp := congrArg NodeRef.path hn2
      have hl := congrArg List.length hp
      simp [List.length_append] at hl
    · intro n hn hel
      exact List.mem_filterMap.mpr ⟨n, hn, wrap_eq_some.mpr ⟨hel, rfl⟩⟩
    · have hpair := childrenAux_pairwise E.node.path 0 E.node.tree.children
      have hsub := filterMap_wrap_map_node_sublist E.node.children
      have hp2 := List.Pairwise.sublist hsub hpair
      have hp3 := List.pairwise_map.mp hp2
      exact hp3.chain'
    · intro hE
      have hwrap : ElementRef.wrap E.node = some (ElementRef.mk E.node) :=
        wrap_eq_some.mpr ⟨hE, rfl⟩
      have heq : E.descendent_elements
          = E :: (openNodes (edgesForest E.node.path 0 E.node.tree.children)).filterMap
              ElementRef.wrap := by
        show (E.node.descendants).filterMap ElementRef.wrap = _
        rw [descendants_eq, List.filterMap_cons, hwrap]
      refine ⟨_, heq, ?_, ?_⟩
      · intro d hd
        rcases List.mem_filterMap.mp hd with ⟨n, hn, hwn⟩
        obtain ⟨-, rfl⟩ := wrap_eq_some.mp hwn
        rcases edgesForest_open_below E.node.path 0 _ n hn with ⟨j, r, -, hpath⟩
        intro hEq
        have hn2 : n = E.node := congrArg ElementRef.node hEq
        rw [hn2] at hpath
        have hl := congrArg List.length hpath
        simp [List.length_append] at hl
      · have hpair : (E.node.descendants).Pairwise nodeLt := by
          show (openNodes (NTree.edges E.node.path E.node.tree)).Pairwise nodeLt
          exact edges_open_pairwise _ _
        have hsub := filterMap_wrap_map_node_sublist E.node.descendants
        have hp2 := List.Pairwise.sublist hsub hpair
        have hp3 := List.pairwise_map.mp hp2
        have hchain : List.Chain' docBefore (E.descendent_elements) := hp3.chain'
        rw [heq] at hchain
        exact hchain
  · rfl

/-- Witness for C6 at the example fragment root: the descendant-element
sequence starts with the root itself, never repeats it, and is in document
order. -/
theorem child_and_descendent_elements_witness :
    ∃ rest, exampleRoot.descendent_elements = exampleRoot :: rest ∧
      (∀ d ∈ rest, d ≠ exampleRoot) ∧ List.Chain' docBefore (exampleRoot :: rest) :=
  (child_and_descendent_elements.1 exampleRoot).2.2.2 rfl

/-- Claim C7: `html` serializes with whole-subtree scope and always contains
the element's own start/end tag markup — it is exactly the element's start
tag, then `inner_html`, then its end tag — while `inner_html` serializes with
children-only scope and is built solely from the children, never emitting the
anchor's own markup; both invocations supply `scripting_enabled = false` and
`create_missing_parent = false`. -/
theorem serialization_scopes (E : ElementRef) (el : Element)
    (h : E.node.value = Node.Element el) :
    E.html = startTag el ++ E.inner_html ++ endTag el ∧
    E.inner_html = serializeForest E.node.tree.children ∧
    (startTag el).data <+: (E.html).data ∧
    (endTag el).data <:+ (E.html).data ∧
    (E.html).length = (startTag el).length + (E.inner_html).length + (endTag el).length ∧
    (∀ ts, E.serialize ts = externalSerialize E ⟨false, ts, false⟩) ∧
    E.html = E.serialize TraversalScope.IncludeNode ∧
    E.inner_html = E.serialize (TraversalScope.ChildrenOnly none) := by
  obtain ⟨⟨p, t⟩⟩ := E
  cases t with
  | node v cs =>
    have hv : v = Node.Element el := h
    subst hv
    refine ⟨rfl, rfl, ?_, ?_, ?_, fun ts => rfl, rfl, rfl⟩
    · show (startTag el).data
        <+: ((startTag el ++ serializeForest cs ++ endTag el)).data
      rw [String.data_append, String.data_append, List.append_assoc]
      exact List.prefix_append _ _
    · show (endTag el).data
        <:+ ((startTag el ++ serializeForest cs ++ endTag el)).data
      rw [String.data_append]
      exact List.suffix_append _ _
    · show (startTag el ++ serializeForest cs ++ endTag el).length
        = (startTag el).length
          + (ElementRef.inner_html ⟨⟨p, NTree.node (Node.Element el) cs⟩⟩).length
          + (endTag el).length
      rw [String.length_append, String.length_append]
      rfl

/-- Witness for C7 on the childless `div`: its whole-subtree serialization is
its start tag, its (empty) inner HTML, then its end tag. -/
theorem serialization_scopes_witness :
    divEl.html = startTag ⟨"div", []⟩ ++ divEl.inner_html ++ endTag ⟨"div", []⟩ :=
  (serialization_scopes divEl ⟨"div", []⟩ rfl).1

end Scraper
